import Mathlib

/-!
Verification of the slow-query analyzer core (extraction, classification,
aggregation, ranking, statistics) from `slow_query_analyzer.py`.

Strings are modelled as `List Char` over the ASCII fragment the analyzer
works with; Python `float` division is modelled as exact division in `ℚ`;
Python dicts (which preserve insertion order and overwrite values in place)
are modelled as association lists; Python's stable `list.sort` is modelled
as a stable insertion sort (`sortS`), which computes the same list as any
stable sort for the same total preorder.
-/

namespace SQA

/-- Strings of the analyzer, modelled as lists of characters. -/
abbrev Str := List Char

/-- Coerce a Lean string literal to the model's string type. -/
def str (s : String) : Str := s.data

/-- The single-quote character, `'`. -/
def quoteChar : Char := Char.ofNat 39

/-- Word character of the regex `\w` class on ASCII input:
letters, digits and underscore. -/
def isWordChar (c : Char) : Bool := c.isAlphanum || c == '_'

/-- Whitespace of the regex `\s` class and of `str.strip()` on ASCII input. -/
def isSpaceChar (c : Char) : Bool :=
  c == ' ' || c == '\t' || c == '\n' || c == '\r' || c == Char.ofNat 11 || c == Char.ofNat 12

/-- ASCII uppercase test, `'A' ≤ c ≤ 'Z'`. -/
def isUpperAscii (c : Char) : Bool := 'A' ≤ c && c ≤ 'Z'

/-- Python `str.lower()` on ASCII input: shift `'A'..'Z'` down by 32. -/
def toLowerChar (c : Char) : Char :=
  if isUpperAscii c then Char.ofNat (c.toNat + 32) else c

/-- Lowercasing a whole string, `query.lower()`. -/
def lowerStr (s : Str) : Str := s.map toLowerChar

/-- Python `str.strip()`: drop whitespace from both ends. -/
def pyStrip (s : Str) : Str :=
  ((s.dropWhile isSpaceChar).reverse.dropWhile isSpaceChar).reverse

/-- Match a literal at the front of a string, returning the rest. -/
def stripLit : Str → Str → Option Str
  | [], s => some s
  | _ :: _, [] => none
  | p :: pt, c :: ct => if p = c then stripLit pt ct else none

/-- Python `str.startswith`. -/
def startsWith (kw s : Str) : Bool := (stripLit kw s).isSome

/-- Value of a nonempty digit string, as computed by Python `int`. -/
def digitsToNat (s : Str) : Nat :=
  s.foldl (fun a c => a * 10 + (c.toNat - 48)) 0

/-- Success condition of Python `int()` on the captured text: the capture is
a nonempty run of digits (the extraction regex guarantees this shape, so the
analyzer calls `int` unguarded). -/
def pyInt (s : Str) : Option Nat :=
  if s ≠ [] ∧ s.all Char.isDigit then some (digitsToNat s) else none

/-- Tokens of the classifier's search patterns: a literal, or `\s+`. -/
inductive PatTok where
  | lit (s : Str)
  | ws
deriving DecidableEq

/-- Match a token sequence at the front of a string, returning the rest.
A `ws` token consumes a maximal nonempty whitespace run, which is exactly
what `\s+` commits to here: every token that can follow `ws` in the
analyzer's patterns begins with a non-whitespace character, so the regex
backtracking never gives back whitespace. -/
def matchToks : List PatTok → Str → Option Str
  | [], s => some s
  | .lit l :: ts, s => (stripLit l s).bind (matchToks ts)
  | .ws :: ts, s =>
    match s with
    | [] => none
    | c :: tl => if isSpaceChar c then matchToks ts (tl.dropWhile isSpaceChar) else none

/-- Match a token sequence followed by a `(\w+)` capture at the front of a
string, returning the captured identifier. -/
def matchCapture (toks : List PatTok) (s : Str) : Option Str :=
  (matchToks toks s).bind fun r =>
    let w := r.takeWhile isWordChar
    if w = [] then none else some w

/-- Leftmost search of `re.search(pat, s)` for the patterns
`<toks>(\w+)`: try each start position from the left. -/
def reSearch (toks : List PatTok) : Str → Option Str
  | [] => none
  | c :: tl =>
    match matchCapture toks (c :: tl) with
    | some w => some w
    | none => reSearch toks tl

/-- The sentinel table name. -/
def unknownTable : Str := str "unknown"

/-- The classifier `_extract_operation_and_table` of the source: lowercase
the (already stripped) query, dispatch on the leading keyword, and look up
the table with the corresponding `re.search` pattern. -/
def extract_operation_and_table (query : Str) : Str × Str :=
  let query_lower := lowerStr query
  if startsWith (str "select") query_lower then
    (str "SELECT", (reSearch [.lit (str "from"), .ws] query_lower).getD unknownTable)
  else if startsWith (str "insert") query_lower then
    (str "INSERT",
      (reSearch [.lit (str "insert"), .ws, .lit (str "into"), .ws] query_lower).getD unknownTable)
  else if startsWith (str "update") query_lower then
    (str "UPDATE", (reSearch [.lit (str "update"), .ws] query_lower).getD unknownTable)
  else if startsWith (str "delete") query_lower then
    (str "DELETE",
      (reSearch [.lit (str "delete"), .ws, .lit (str "from"), .ws] query_lower).getD unknownTable)
  else
    (str "OTHER", unknownTable)

/-- Tokens of the timestamp shape `\d{4}-\d{2}-\d{2} \d{2}:\d{2}:\d{2}\.\d{3}`. -/
inductive TsTok where
  | dig (n : Nat)
  | ch (c : Char)
deriving DecidableEq

/-- Take exactly `n` characters, all digits, returning the rest. -/
def takeDigitsN (n : Nat) (s : Str) : Option Str :=
  if (s.take n).length = n ∧ (s.take n).all Char.isDigit then some (s.drop n) else none

/-- Match a timestamp-shape token sequence, returning the rest. -/
def matchShape : List TsTok → Str → Option Str
  | [], s => some s
  | .dig n :: ts, s => (takeDigitsN n s).bind (matchShape ts)
  | .ch c :: ts, s =>
    match s with
    | [] => none
    | x :: tl => if x = c then matchShape ts tl else none

/-- The timestamp pattern of the extraction regex. -/
def tsToks : List TsTok :=
  [.dig 4, .ch '-', .dig 2, .ch '-', .dig 2, .ch ' ', .dig 2, .ch ':', .dig 2,
   .ch ':', .dig 2, .ch '.', .dig 3]

/-- One raw tuple produced by the extraction regex: the three capture groups. -/
structure RawMatch where
  timestamp : Str
  time_digits : Str
  sql : Str
deriving DecidableEq

/-- The tail `.*?wrapping ([^']*)'` of the extraction regex, searched lazily
from the current position: find the leftmost `wrapping ` occurrence after
which a closing quote exists; the capture is the maximal quote-free run.
If a `wrapping ` occurrence has no closing quote after it, no later
occurrence has one either (its remainder is a suffix), so the whole tail
fails, matching the regex backtracking. -/
def findWrap : Str → Option (Str × Str)
  | [] => none
  | c :: tl =>
    match stripLit (str "wrapping ") (c :: tl) with
    | some r =>
      if r.any (· = quoteChar) then
        some (r.takeWhile (· ≠ quoteChar), (r.dropWhile (· ≠ quoteChar)).drop 1)
      else none
    | none => findWrap tl

/-- The literal marker `SlowQuery: ` of the extraction regex. -/
def sqMarker : Str := str "SlowQuery: "

/-- The literal ` milliseconds. SQL: '` following the digits capture. -/
def msLit : Str := str " milliseconds. SQL: " ++ [quoteChar]

/-- Attempt of the middle part `SlowQuery: (\d+) milliseconds\. SQL: '` of
the extraction regex at the current position, continuing with the tail.
The greedy `(\d+)` commits to the maximal digit run: a shorter run would
leave a digit where the literal expects a space. -/
def slowHere (s : Str) : Option (Str × Str × Str) :=
  match stripLit sqMarker s with
  | none => none
  | some r1 =>
    if r1.takeWhile Char.isDigit = [] then none
    else
      match stripLit msLit (r1.dropWhile Char.isDigit) with
      | none => none
      | some r3 =>
        match findWrap r3 with
        | none => none
        | some (cap, rest) => some (r1.takeWhile Char.isDigit, cap, rest)

/-- The lazy span `.*?SlowQuery: …` of the extraction regex: try the middle
part at each position from the left (the regex backtracks by extending the
lazy span one character at a time). -/
def findSlow : Str → Option (Str × Str × Str)
  | [] => none
  | c :: tl =>
    match slowHere (c :: tl) with
    | some x => some x
    | none => findSlow tl

/-- Attempt the whole extraction regex anchored at the current position. -/
def tryMatchAt (s : Str) : Option (RawMatch × Str) :=
  match matchShape tsToks s with
  | none => none
  | some rest =>
    match findSlow rest with
    | none => none
    | some (d, cap, rest2) =>
      some ({ timestamp := s.take (s.length - rest.length), time_digits := d, sql := cap }, rest2)

/-- All non-overlapping matches of the extraction regex, scanned left to
right as `re.findall` does; the fuel is an upper bound on the number of
scanning steps (each step consumes at least one character). -/
def findAllAux : Nat → Str → List RawMatch
  | 0, _ => []
  | _ + 1, [] => []
  | fuel + 1, c :: tl =>
    match tryMatchAt (c :: tl) with
    | some (m, rest) => m :: findAllAux fuel rest
    | none => findAllAux fuel tl

/-- `re.findall(pattern, content, re.DOTALL)` of `_parse_single_file`. -/
def findAll (s : Str) : List RawMatch := findAllAux s.length s

/-- Python `os.path.basename` on POSIX paths: the part after the last `/`. -/
def basename (p : Str) : Str := (p.reverse.takeWhile (· ≠ '/')).reverse

/-- Truncation of `query_clean` to the 200-character preview. -/
def preview (q : Str) : Str :=
  if 200 < q.length then q.take 200 ++ str "..." else q

/-- One extracted record, the `query_info` dict of `_parse_single_file`. -/
structure QueryInfo where
  timestamp : Str
  execution_time : Nat
  operation : Str
  table : Str
  query_type : Str
  query : Str
  query_preview : Str
  source_file : Str
deriving DecidableEq

/-- Build the `query_info` record from one raw regex match, as the loop body
of `_parse_single_file` does. -/
def mkQueryInfo (filePath : Str) (m : RawMatch) : QueryInfo :=
  let query_clean := pyStrip m.sql
  let ot := extract_operation_and_table query_clean
  { timestamp := m.timestamp
    execution_time := digitsToNat m.time_digits
    operation := ot.1
    table := ot.2
    query_type := ot.1 ++ [' '] ++ ot.2
    query := query_clean
    query_preview := preview query_clean
    source_file := basename filePath }

/-- Per-file bookkeeping stored in `self.file_stats[file_path]`. -/
structure FileStat where
  queries : Nat
  file_size : Nat
  basename : Str
deriving DecidableEq

/-- The mutable state of a `SlowQueryAnalyzer` instance: the discovered file
list, the flat record list `self.queries`, the insertion-ordered group map
`self.query_groups`, and the per-file stats dict `self.file_stats`.
Both dicts are modelled as association lists in insertion order. -/
structure AnalyzerState where
  file_list : List Str
  queries : List QueryInfo
  query_groups : List (Str × List QueryInfo)
  file_stats : List (Str × FileStat)
deriving DecidableEq

/-- A freshly constructed analyzer, before any file is parsed. -/
def emptyState : AnalyzerState := ⟨[], [], [], []⟩

/-- Append to a `defaultdict(list)` entry, creating the entry at the end of
the dict (insertion order) on first use of the key. -/
def groupsInsert (groups : List (Str × List QueryInfo)) (key : Str) (q : QueryInfo) :
    List (Str × List QueryInfo) :=
  match groups with
  | [] => [(key, [q])]
  | (k, l) :: tl =>
    if k = key then (k, l ++ [q]) :: tl else (k, l) :: groupsInsert tl key q

/-- Dict assignment `d[key] = v`: overwrite in place if the key exists,
otherwise append a new entry. -/
def assocSet {β : Type} (m : List (Str × β)) (key : Str) (v : β) : List (Str × β) :=
  match m with
  | [] => [(key, v)]
  | (k, w) :: tl => if k = key then (k, v) :: tl else (k, w) :: assocSet tl key v

/-- Dict lookup with default `[]`, as `defaultdict(list)` reads would give. -/
def lookupGroup (groups : List (Str × List QueryInfo)) (key : Str) : List QueryInfo :=
  match groups with
  | [] => []
  | (k, l) :: tl => if k = key then l else lookupGroup tl key

/-- Ingest one record: append to the flat list and to its query-type group,
as the loop body of `_parse_single_file` does. -/
def ingest (st : AnalyzerState) (q : QueryInfo) : AnalyzerState :=
  { st with
    queries := st.queries ++ [q]
    query_groups := groupsInsert st.query_groups q.query_type q }

/-- Ingest a list of records in order. -/
def ingestAll (st : AnalyzerState) (qs : List QueryInfo) : AnalyzerState :=
  qs.foldl ingest st

/-- The body of `_parse_single_file` after the content has been read: return
early on empty content or zero regex matches, otherwise ingest one record
per match and store the per-file stats entry. Returns the new state and the
number of slow queries found. -/
def parse_single_file (st : AnalyzerState) (filePath content : Str) :
    AnalyzerState × Nat :=
  if content = [] then (st, 0)
  else if findAll content = [] then (st, 0)
  else
    ({ ingestAll st ((findAll content).map (mkQueryInfo filePath)) with
        file_stats :=
          assocSet (ingestAll st ((findAll content).map (mkQueryInfo filePath))).file_stats
            filePath
            ⟨((findAll content).map (mkQueryInfo filePath)).length, content.length,
              basename filePath⟩ },
      ((findAll content).map (mkQueryInfo filePath)).length)

/-- The `parse_log_files` pipeline over the discovered files, each given as
a `(path, decoded content)` pair by the file-source collaborator: record the
file list, then parse the files in order. -/
def parse_log_files (files : List (Str × Str)) : AnalyzerState :=
  files.foldl (fun st pc => (parse_single_file st pc.1 pc.2).1)
    { emptyState with file_list := files.map Prod.fst }

/-- Stable insertion of `x` in front of the first element it may precede.
Used to model Python's stable `list.sort`. -/
def insertS {α : Type} (le : α → α → Bool) (x : α) : List α → List α
  | [] => [x]
  | y :: tl => if le x y then x :: y :: tl else y :: insertS le x tl

/-- Stable insertion sort: the unique stable sort for the total preorder
`le`, hence the same list Python's stable `list.sort` produces. -/
def sortS {α : Type} (le : α → α → Bool) : List α → List α
  | [] => []
  | x :: tl => insertS le x (sortS le tl)

/-- One group summary row of `get_top_k_by_hits` / `get_top_k_by_total_time`.
The float average is modelled as an exact rational. -/
structure GroupStat where
  query_type : Str
  hits : Nat
  total_time : Nat
  avg_time : ℚ
  max_time : Nat
  min_time : Nat
  sample_query : Str
  sample_timestamp : Str
deriving DecidableEq

/-- Python `max` over a nonempty list (the `[]` default is never used by
the analyzer: `max` is only applied to nonempty member lists). -/
def listMax : List Nat → Nat
  | [] => 0
  | x :: tl => tl.foldl Nat.max x

/-- Python `min` over a nonempty list, same proviso as `listMax`. -/
def listMin : List Nat → Nat
  | [] => 0
  | x :: tl => tl.foldl Nat.min x

/-- First element's preview, `query_list[0]['query_preview']` (the `[]`
default is never used: groups are created nonempty). -/
def firstPreview : List QueryInfo → Str
  | [] => []
  | q :: _ => q.query_preview

/-- First element's timestamp, `query_list[0]['timestamp']`. -/
def firstTimestamp : List QueryInfo → Str
  | [] => []
  | q :: _ => q.timestamp

/-- The per-group summary computed by both group rankers. -/
def mkGroupStat (key : Str) (ql : List QueryInfo) : GroupStat :=
  let times := ql.map (·.execution_time)
  { query_type := key
    hits := ql.length
    total_time := times.sum
    avg_time := (times.sum : ℚ) / (ql.length : ℚ)
    max_time := listMax times
    min_time := listMin times
    sample_query := firstPreview ql
    sample_timestamp := firstTimestamp ql }

/-- Comparison used for `results.sort(key=lambda x: (x['hits'],
x['total_time']), reverse=True)`: `a` may precede `b` iff `b`'s key is
lexicographically at most `a`'s. -/
def hitsLe (a b : GroupStat) : Bool :=
  decide (b.hits < a.hits ∨ (b.hits = a.hits ∧ b.total_time ≤ a.total_time))

/-- Comparison for `results.sort(key=lambda x: x['total_time'], reverse=True)`. -/
def totalLe (a b : GroupStat) : Bool :=
  decide (b.total_time ≤ a.total_time)

/-- Comparison for `sorted(self.queries, key=lambda x: x['execution_time'],
reverse=True)`. -/
def timeLe (a b : QueryInfo) : Bool :=
  decide (b.execution_time ≤ a.execution_time)

/-- `get_top_k_by_hits`: summarize every group, sort stably by
`(hits, total_time)` descending, truncate to `k`. -/
def get_top_k_by_hits (st : AnalyzerState) (k : Nat) : List GroupStat :=
  (sortS hitsLe (st.query_groups.map fun p => mkGroupStat p.1 p.2)).take k

/-- `get_top_k_by_total_time`: summarize every group, sort stably by
`total_time` descending, truncate to `k`. -/
def get_top_k_by_total_time (st : AnalyzerState) (k : Nat) : List GroupStat :=
  (sortS totalLe (st.query_groups.map fun p => mkGroupStat p.1 p.2)).take k

/-- `get_top_k_by_time`: sort the flat record list stably by
`execution_time` descending, truncate to `k`. -/
def get_top_k_by_time (st : AnalyzerState) (k : Nat) : List QueryInfo :=
  (sortS timeLe st.queries).take k

/-- One value of the `source_files` breakdown of `get_statistics`. -/
structure SourceFileEntry where
  queries : Nat
  file_size : Nat
deriving DecidableEq

/-- The overall statistics of `get_statistics`. The `analysis_timestamp`
field (wall-clock `datetime.now()`) is not a function of the input and is
omitted from the model. -/
structure Statistics where
  total_slow_queries : Nat
  unique_query_types : Nat
  files_processed : Nat
  source_files : List (Str × SourceFileEntry)
  total_execution_time : Nat
  average_execution_time : ℚ
  max_execution_time : Nat
  min_execution_time : Nat
deriving DecidableEq

/-- The `source_files` dict: iterate `self.file_stats` in insertion order,
assigning under the basename key (later files overwrite earlier ones that
share a basename). -/
def buildSourceFiles (fs : List (Str × FileStat)) : List (Str × SourceFileEntry) :=
  fs.foldl (fun acc pf => assocSet acc pf.2.basename ⟨pf.2.queries, pf.2.file_size⟩) []

/-- `get_statistics`: the empty dict (modelled `none`) when no record was
ingested, otherwise the aggregates over the flat record list. -/
def get_statistics (st : AnalyzerState) : Option Statistics :=
  if st.queries = [] then none
  else
    let times := st.queries.map (·.execution_time)
    some
      { total_slow_queries := st.queries.length
        unique_query_types := st.query_groups.length
        files_processed := st.file_list.length
        source_files := buildSourceFiles st.file_stats
        total_execution_time := times.sum
        average_execution_time := (times.sum : ℚ) / (st.queries.length : ℚ)
        max_execution_time := listMax times
        min_execution_time := listMin times }

/-- Decidable membership test for a query type, used to phrase group
membership as ingestion-order filtering. -/
def hasType (k : Str) (q : QueryInfo) : Bool := decide (q.query_type = k)

/-! ### Lemmas about the stable insertion sort -/

theorem insertS_perm {α : Type} (le : α → α → Bool) (x : α) (l : List α) :
    (insertS le x l).Perm (x :: l) := by
  induction l with
  | nil => exact List.Perm.refl _
  | cons y tl ih =>
    rw [insertS]
    cases hxy : le x y
    · rw [if_neg (by simp [hxy])]
      exact (ih.cons y).trans (List.Perm.swap x y tl)
    · rw [if_pos rfl]

theorem sortS_perm {α : Type} (le : α → α → Bool) (l : List α) : (sortS le l).Perm l := by
  induction l with
  | nil => exact List.Perm.refl _
  | cons x tl ih => exact (insertS_perm le x (sortS le tl)).trans (ih.cons x)

theorem length_sortS {α : Type} (le : α → α → Bool) (l : List α) :
    (sortS le l).length = l.length :=
  (sortS_perm le l).length_eq

theorem mem_sortS {α : Type} {le : α → α → Bool} {l : List α} {a : α} :
    a ∈ sortS le l ↔ a ∈ l :=
  (sortS_perm le l).mem_iff

theorem pairwise_insertS {α : Type} {le : α → α → Bool}
    (total : ∀ a b, le a b = true ∨ le b a = true)
    (trans : ∀ a b c, le a b = true → le b c = true → le a c = true)
    (x : α) {l : List α} (h : l.Pairwise (fun a b => le a b = true)) :
    (insertS le x l).Pairwise (fun a b => le a b = true) := by
  induction l with
  | nil => simp [insertS]
  | cons y tl ih =>
    rcases List.pairwise_cons.mp h with ⟨hy, htl⟩
    rw [insertS]
    cases hxy : le x y
    · rw [if_neg (by simp [hxy])]
      refine List.pairwise_cons.mpr ⟨?_, ih htl⟩
      intro b hb
      rcases List.mem_cons.mp ((insertS_perm le x tl).mem_iff.mp hb) with rfl | h2
      · rcases total b y with h1 | h1
        · rw [h1] at hxy; cases hxy
        · exact h1
      · exact hy b h2
    · rw [if_pos rfl]
      refine List.pairwise_cons.mpr ⟨?_, h⟩
      intro b hb
      rcases List.mem_cons.mp hb with rfl | h2
      · exact hxy
      · exact trans x y b hxy (hy b h2)

theorem pairwise_sortS {α : Type} {le : α → α → Bool}
    (total : ∀ a b, le a b = true ∨ le b a = true)
    (trans : ∀ a b c, le a b = true → le b c = true → le a c = true)
    (l : List α) : (sortS le l).Pairwise (fun a b => le a b = true) := by
  induction l with
  | nil => simp [sortS]
  | cons x tl ih => exact pairwise_insertS total trans x ih

theorem filter_insertS_pos {α : Type} {le : α → α → Bool} {p : α → Bool} {x : α}
    {l : List α} (hx : p x = true)
    (hall : ∀ b ∈ l, p b = true → le x b = true) :
    (insertS le x l).filter p = x :: l.filter p := by
  induction l with
  | nil => simp [insertS, hx]
  | cons y tl ih =>
    rw [insertS]
    cases hxy : le x y
    · rw [if_neg (by simp [hxy])]
      have hpy : p y = false := by
        cases hpy : p y
        · rfl
        · rw [hall y (List.mem_cons_self y tl) hpy] at hxy; cases hxy
      rw [List.filter_cons_of_neg (by simp [hpy]),
        ih (fun b hb hpb => hall b (List.mem_cons_of_mem y hb) hpb),
        List.filter_cons_of_neg (by simp [hpy])]
    · rw [if_pos rfl, List.filter_cons_of_pos hx]

theorem filter_insertS_neg {α : Type} {le : α → α → Bool} {p : α → Bool} {x : α}
    {l : List α} (hx : p x = false) :
    (insertS le x l).filter p = l.filter p := by
  induction l with
  | nil => simp [insertS, hx]
  | cons y tl ih =>
    rw [insertS]
    cases hxy : le x y
    · rw [if_neg (by simp [hxy])]
      cases hpy : p y
      · rw [List.filter_cons_of_neg (by simp [hpy]), ih,
          List.filter_cons_of_neg (by simp [hpy])]
      · rw [List.filter_cons_of_pos hpy, ih, List.filter_cons_of_pos hpy]
    · rw [if_pos rfl, List.filter_cons_of_neg (by simp [hx])]

/-- Stability of the modelled sort: the elements selected by a predicate
that is compatible with the order (any two selected elements compare `le`
both ways, i.e. are ties) appear in the sorted list exactly in their
original order. -/
theorem filter_sortS {α : Type} {le : α → α → Bool} {p : α → Bool}
    (compat : ∀ a b, p a = true → p b = true → le a b = true) :
    ∀ l : List α, (sortS le l).filter p = l.filter p := by
  intro l
  induction l with
  | nil => simp [sortS]
  | cons x tl ih =>
    rw [sortS]
    cases hx : p x
    · rw [filter_insertS_neg hx, ih, List.filter_cons_of_neg (by simp [hx])]
    · rw [filter_insertS_pos hx (fun b _ hpb => compat x b hx hpb), ih,
        List.filter_cons_of_pos hx]

/-! ### Lemmas about the nonempty fold maximum and minimum -/

theorem le_foldl_max (l : List Nat) (a : Nat) : a ≤ l.foldl Nat.max a := by
  induction l generalizing a with
  | nil => simp
  | cons x tl ih =>
    rw [List.foldl_cons]
    exact le_trans (Nat.le_max_left a x) (ih _)

theorem mem_le_foldl_max {l : List Nat} {b : Nat} (hb : b ∈ l) (a : Nat) :
    b ≤ l.foldl Nat.max a := by
  induction l generalizing a with
  | nil => cases hb
  | cons x tl ih =>
    rw [List.foldl_cons]
    rcases List.mem_cons.mp hb with rfl | h
    · exact le_trans (Nat.le_max_right a b) (le_foldl_max tl _)
    · exact ih h _

theorem foldl_max_mem (l : List Nat) (a : Nat) :
    l.foldl Nat.max a = a ∨ l.foldl Nat.max a ∈ l := by
  induction l generalizing a with
  | nil => exact Or.inl rfl
  | cons x tl ih =>
    rw [List.foldl_cons]
    rcases ih (Nat.max a x) with h | h
    · rcases Nat.le_total a x with hle | hle
      · have hm : Nat.max a x = x := Nat.max_eq_right hle
        exact Or.inr (by rw [h, hm]; exact List.mem_cons_self x tl)
      · have hm : Nat.max a x = a := Nat.max_eq_left hle
        exact Or.inl (by rw [h, hm])
    · exact Or.inr (List.mem_cons_of_mem x h)

theorem listMax_mem {l : List Nat} (h : l ≠ []) : listMax l ∈ l := by
  cases l with
  | nil => exact absurd rfl h
  | cons x tl =>
    rw [listMax]
    rcases foldl_max_mem tl x with h1 | h1
    · rw [h1]; exact List.mem_cons_self x tl
    · exact List.mem_cons_of_mem x h1

theorem le_listMax {l : List Nat} {b : Nat} (hb : b ∈ l) : b ≤ listMax l := by
  cases l with
  | nil => cases hb
  | cons x tl =>
    rw [listMax]
    rcases List.mem_cons.mp hb with rfl | h
    · exact le_foldl_max tl b
    · exact mem_le_foldl_max h x

theorem foldl_min_le (l : List Nat) (a : Nat) : l.foldl Nat.min a ≤ a := by
  induction l generalizing a with
  | nil => simp
  | cons x tl ih =>
    rw [List.foldl_cons]
    exact le_trans (ih _) (Nat.min_le_left a x)

theorem foldl_min_le_mem {l : List Nat} {b : Nat} (hb : b ∈ l) (a : Nat) :
    l.foldl Nat.min a ≤ b := by
  induction l generalizing a with
  | nil => cases hb
  | cons x tl ih =>
    rw [List.foldl_cons]
    rcases List.mem_cons.mp hb with rfl | h
    · exact le_trans (foldl_min_le tl _) (Nat.min_le_right a b)
    · exact ih h _

theorem foldl_min_mem (l : List Nat) (a : Nat) :
    l.foldl Nat.min a = a ∨ l.foldl Nat.min a ∈ l := by
  induction l generalizing a with
  | nil => exact Or.inl rfl
  | cons x tl ih =>
    rw [List.foldl_cons]
    rcases ih (Nat.min a x) with h | h
    · rcases Nat.le_total a x with hle | hle
      · have hm : Nat.min a x = a := Nat.min_eq_left hle
        exact Or.inl (by rw [h, hm])
      · have hm : Nat.min a x = x := Nat.min_eq_right hle
        exact Or.inr (by rw [h, hm]; exact List.mem_cons_self x tl)
    · exact Or.inr (List.mem_cons_of_mem x h)

theorem listMin_mem {l : List Nat} (h : l ≠ []) : listMin l ∈ l := by
  cases l with
  | nil => exact absurd rfl h
  | cons x tl =>
    rw [listMin]
    rcases foldl_min_mem tl x with h1 | h1
    · rw [h1]; exact List.mem_cons_self x tl
    · exact List.mem_cons_of_mem x h1

theorem listMin_le {l : List Nat} {b : Nat} (hb : b ∈ l) : listMin l ≤ b := by
  cases l with
  | nil => cases hb
  | cons x tl =>
    rw [listMin]
    rcases List.mem_cons.mp hb with rfl | h
    · exact foldl_min_le tl b
    · exact foldl_min_le_mem h x

/-! ### The grouping invariant

Groups are exactly the ingestion-order fibers of `query_type`: the member
list of each group equals the filter of the flat record list by the group's
key, keys are unique, every record's key owns a group, and member lists are
nonempty. -/

/-- The step of the group-map fold: insert one record under its own key. -/
def groupsOfStep (g : List (Str × List QueryInfo)) (q : QueryInfo) :
    List (Str × List QueryInfo) :=
  groupsInsert g q.query_type q

/-- Well-formedness of a group map relative to the records seen so far. -/
def groupsWF (groups : List (Str × List QueryInfo)) (seen : List QueryInfo) : Prop :=
  (groups.map Prod.fst).Nodup ∧
  (∀ p ∈ groups, p.2 = seen.filter (hasType p.1) ∧ p.2 ≠ []) ∧
  (∀ q ∈ seen, q.query_type ∈ groups.map Prod.fst)

theorem groupsInsert_map_fst (g : List (Str × List QueryInfo)) (key : Str) (q : QueryInfo) :
    (groupsInsert g key q).map Prod.fst =
      if key ∈ g.map Prod.fst then g.map Prod.fst else g.map Prod.fst ++ [key] := by
  induction g with
  | nil => simp [groupsInsert]
  | cons p tl ih =>
    obtain ⟨k, l⟩ := p
    by_cases h : k = key
    · subst h
      simp [groupsInsert]
    · simp only [groupsInsert, if_neg h, List.map_cons, ih]
      by_cases hmem : key ∈ tl.map Prod.fst
      · rw [if_pos hmem, if_pos (by simp [hmem])]
      · rw [if_neg hmem, if_neg ?_, List.cons_append]
        simp only [List.mem_cons]
        rintro (hkk | hkk)
        · exact h hkk.symm
        · exact hmem hkk

theorem filter_hasType_single_self (q : QueryInfo) :
    List.filter (hasType q.query_type) [q] = [q] := by
  simp [hasType]

theorem filter_hasType_single_ne (k : Str) (q : QueryInfo) (h : ¬ q.query_type = k) :
    List.filter (hasType k) [q] = [] := by
  simp [hasType, h]

theorem groupsInsert_ne_nil (g : List (Str × List QueryInfo)) (key : Str) (q : QueryInfo)
    (h : ∀ p ∈ g, p.2 ≠ []) : ∀ p ∈ groupsInsert g key q, p.2 ≠ [] := by
  induction g with
  | nil =>
    intro p hp
    rw [groupsInsert] at hp
    rcases List.mem_singleton.mp hp with rfl
    simp
  | cons hd tl ih =>
    obtain ⟨k, l⟩ := hd
    intro p hp
    by_cases hk : k = key
    · rw [groupsInsert, if_pos hk] at hp
      rcases List.mem_cons.mp hp with rfl | hp2
      · simp
      · exact h p (List.mem_cons_of_mem _ hp2)
    · rw [groupsInsert, if_neg hk] at hp
      rcases List.mem_cons.mp hp with rfl | hp2
      · exact h _ (List.mem_cons_self _ _)
      · exact ih (fun p hp => h p (List.mem_cons_of_mem _ hp)) p hp2

theorem groupsInsert_entries_mem (g : List (Str × List QueryInfo)) (seen : List QueryInfo)
    (q : QueryInfo) (hnd : (g.map Prod.fst).Nodup)
    (hent : ∀ p ∈ g, p.2 = seen.filter (hasType p.1))
    (hkey : q.query_type ∈ g.map Prod.fst) :
    ∀ p ∈ groupsInsert g q.query_type q, p.2 = (seen ++ [q]).filter (hasType p.1) := by
  induction g with
  | nil => simp at hkey
  | cons hd tl ih =>
    obtain ⟨k, l⟩ := hd
    intro p hp
    by_cases hk : k = q.query_type
    · rw [groupsInsert, if_pos hk] at hp
      rcases List.mem_cons.mp hp with rfl | hp2
      · have hl : l = seen.filter (hasType k) := hent (k, l) (List.mem_cons_self _ _)
        have hq : List.filter (hasType k) [q] = [q] := by
          rw [hk]
          exact filter_hasType_single_self q
        show l ++ [q] = List.filter (hasType k) (seen ++ [q])
        rw [List.filter_append, ← hl, hq]
      · have hne : p.1 ≠ k := by
          have hk1 : k ∉ tl.map Prod.fst := (List.nodup_cons.mp hnd).1
          intro hpk
          exact hk1 (hpk ▸ List.mem_map_of_mem Prod.fst hp2)
        have hl : p.2 = seen.filter (hasType p.1) := hent p (List.mem_cons_of_mem _ hp2)
        have hq : List.filter (hasType p.1) [q] = [] := by
          refine filter_hasType_single_ne p.1 q ?_
          intro he
          exact hne (by rw [← he, ← hk])
        rw [hl, List.filter_append, hq, List.append_nil]
    · rw [groupsInsert, if_neg hk] at hp
      rcases List.mem_cons.mp hp with rfl | hp2
      · have hl : (k, l).2 = seen.filter (hasType (k, l).1) :=
          hent (k, l) (List.mem_cons_self _ _)
        have hq : List.filter (hasType k) [q] = [] :=
          filter_hasType_single_ne k q (fun he => hk he.symm)
        show l = List.filter (hasType k) (seen ++ [q])
        rw [List.filter_append, hq, List.append_nil]
        exact hl
      · have hkey2 : q.query_type ∈ tl.map Prod.fst := by
          rcases List.mem_cons.mp hkey with h1 | h1
          · exact absurd h1.symm hk
          · exact h1
        exact ih (List.nodup_cons.mp hnd).2
          (fun p hp => hent p (List.mem_cons_of_mem _ hp)) hkey2 p hp2

theorem groupsInsert_entries_new (g : List (Str × List QueryInfo)) (seen : List QueryInfo)
    (q : QueryInfo)
    (hent : ∀ p ∈ g, p.2 = seen.filter (hasType p.1))
    (hkey : q.query_type ∉ g.map Prod.fst)
    (hseen : seen.filter (hasType q.query_type) = []) :
    ∀ p ∈ groupsInsert g q.query_type q, p.2 = (seen ++ [q]).filter (hasType p.1) := by
  induction g with
  | nil =>
    intro p hp
    rw [groupsInsert] at hp
    rcases List.mem_singleton.mp hp with rfl
    show [q] = List.filter (hasType q.query_type) (seen ++ [q])
    rw [List.filter_append, hseen, List.nil_append, filter_hasType_single_self]
  | cons hd tl ih =>
    obtain ⟨k, l⟩ := hd
    have hk : ¬ k = q.query_type := by
      intro h
      exact hkey (by simp [h])
    intro p hp
    rw [groupsInsert, if_neg hk] at hp
    rcases List.mem_cons.mp hp with rfl | hp2
    · have hl : (k, l).2 = seen.filter (hasType (k, l).1) :=
        hent (k, l) (List.mem_cons_self _ _)
      have hq : List.filter (hasType k) [q] = [] :=
        filter_hasType_single_ne k q (fun he => hk he.symm)
      show l = List.filter (hasType k) (seen ++ [q])
      rw [List.filter_append, hq, List.append_nil]
      exact hl
    · refine ih (fun p hp => hent p (List.mem_cons_of_mem _ hp)) ?_ p hp2
      intro h
      exact hkey (by simp [h])

theorem groupsWF_insert {g : List (Str × List QueryInfo)} {seen : List QueryInfo}
    (q : QueryInfo) (h : groupsWF g seen) :
    groupsWF (groupsOfStep g q) (seen ++ [q]) := by
  obtain ⟨hnd, hent, hcov⟩ := h
  by_cases hkey : q.query_type ∈ g.map Prod.fst
  · refine ⟨?_, ?_, ?_⟩
    · simp only [groupsOfStep]
      rw [groupsInsert_map_fst, if_pos hkey]
      exact hnd
    · intro p hp
      exact ⟨groupsInsert_entries_mem g seen q hnd (fun p hp => (hent p hp).1) hkey p hp,
        groupsInsert_ne_nil g _ q (fun p hp => (hent p hp).2) p hp⟩
    · intro r hr
      simp only [groupsOfStep]
      rw [groupsInsert_map_fst, if_pos hkey]
      rcases List.mem_append.mp hr with h1 | h1
      · exact hcov r h1
      · rcases List.mem_singleton.mp h1 with rfl
        exact hkey
  · have hseen : seen.filter (hasType q.query_type) = [] := by
      rw [List.filter_eq_nil_iff]
      intro r hr hrt
      have hrq : r.query_type = q.query_type := of_decide_eq_true hrt
      exact hkey (hrq ▸ hcov r hr)
    refine ⟨?_, ?_, ?_⟩
    · simp only [groupsOfStep]
      rw [groupsInsert_map_fst, if_neg hkey, List.nodup_append]
      refine ⟨hnd, List.nodup_singleton _, ?_⟩
      intro a ha hb
      rcases List.mem_singleton.mp hb with rfl
      exact hkey ha
    · intro p hp
      exact ⟨groupsInsert_entries_new g seen q (fun p hp => (hent p hp).1) hkey hseen p hp,
        groupsInsert_ne_nil g _ q (fun p hp => (hent p hp).2) p hp⟩
    · intro r hr
      simp only [groupsOfStep]
      rw [groupsInsert_map_fst, if_neg hkey]
      rcases List.mem_append.mp hr with h1 | h1
      · exact List.mem_append_left _ (hcov r h1)
      · rcases List.mem_singleton.mp h1 with rfl
        exact List.mem_append_right _ (List.mem_singleton_self _)

theorem groupsWF_foldl (recs : List QueryInfo) :
    ∀ g seen, groupsWF g seen → groupsWF (recs.foldl groupsOfStep g) (seen ++ recs) := by
  induction recs with
  | nil => intro g seen h; simpa using h
  | cons r tl ih =>
    intro g seen h
    have := ih (groupsOfStep g r) (seen ++ [r]) (groupsWF_insert r h)
    simpa using this

/-! ### State evolution under ingestion -/

theorem ingestAll_queries (recs : List QueryInfo) :
    ∀ st : AnalyzerState, (ingestAll st recs).queries = st.queries ++ recs := by
  induction recs with
  | nil => intro st; simp [ingestAll]
  | cons r tl ih =>
    intro st
    show (ingestAll (ingest st r) tl).queries = _
    rw [ih (ingest st r)]
    simp [ingest]

theorem ingestAll_groups (recs : List QueryInfo) :
    ∀ st : AnalyzerState,
      (ingestAll st recs).query_groups = recs.foldl groupsOfStep st.query_groups := by
  induction recs with
  | nil => intro st; simp [ingestAll]
  | cons r tl ih =>
    intro st
    show (ingestAll (ingest st r) tl).query_groups = _
    rw [ih (ingest st r)]
    simp [ingest, groupsOfStep]

theorem ingestAll_file_list (recs : List QueryInfo) :
    ∀ st : AnalyzerState, (ingestAll st recs).file_list = st.file_list := by
  induction recs with
  | nil => intro st; simp [ingestAll]
  | cons r tl ih =>
    intro st
    show (ingestAll (ingest st r) tl).file_list = _
    rw [ih (ingest st r)]
    rfl

theorem ingestAll_file_stats (recs : List QueryInfo) :
    ∀ st : AnalyzerState, (ingestAll st recs).file_stats = st.file_stats := by
  induction recs with
  | nil => intro st; simp [ingestAll]
  | cons r tl ih =>
    intro st
    show (ingestAll (ingest st r) tl).file_stats = _
    rw [ih (ingest st r)]
    rfl

/-- Any state built by ingesting records into a fresh analyzer satisfies the
grouping invariant. -/
theorem groupsWF_ingestAll (recs : List QueryInfo) :
    groupsWF (ingestAll emptyState recs).query_groups (ingestAll emptyState recs).queries := by
  rw [ingestAll_groups, ingestAll_queries]
  have h0 : groupsWF emptyState.query_groups emptyState.queries := by
    refine ⟨List.nodup_nil, ?_, ?_⟩ <;> simp [emptyState]
  simpa [emptyState] using groupsWF_foldl recs emptyState.query_groups emptyState.queries h0

/-! ### Extraction lemmas: absence of the marker, shape of the digit capture -/

/-- Substring occurrence test: does `pat` occur as a prefix of some suffix. -/
def containsSub (pat : Str) : Str → Bool
  | [] => pat.isPrefixOf []
  | c :: tl => pat.isPrefixOf (c :: tl) || containsSub pat tl

theorem stripLit_isPrefixOf {p s r : Str} (h : stripLit p s = some r) :
    p.isPrefixOf s = true := by
  induction p generalizing s with
  | nil => cases s <;> simp [List.isPrefixOf]
  | cons a pt ih =>
    cases s with
    | nil => cases h
    | cons c ct =>
      rw [stripLit] at h
      by_cases hac : a = c
      · rw [if_pos hac] at h
        subst hac
        simp only [List.isPrefixOf, beq_self_eq_true, Bool.true_and]
        exact ih h
      · rw [if_neg hac] at h
        cases h

theorem isPrefixOf_of_append {p t s : Str} (h : (p ++ t).isPrefixOf s = true) :
    p.isPrefixOf s = true := by
  induction p generalizing s with
  | nil => simp [List.isPrefixOf]
  | cons a pt ih =>
    cases s with
    | nil => simp [List.isPrefixOf] at h
    | cons c ct =>
      simp only [List.cons_append, List.isPrefixOf, Bool.and_eq_true] at h ⊢
      exact ⟨h.1, ih h.2⟩

theorem containsSub_of_isPrefixOf {pat s : Str} (h : pat.isPrefixOf s = true) :
    containsSub pat s = true := by
  cases s with
  | nil => exact h
  | cons c tl => simp [containsSub, h]

theorem containsSub_tail {pat : Str} {c : Char} {tl : Str}
    (h : containsSub pat (c :: tl) = false) : containsSub pat tl = false := by
  rw [containsSub, Bool.or_eq_false_iff] at h
  exact h.2

theorem containsSub_suffix {pat s t : Str} (h : containsSub pat s = false)
    (hsuf : t <:+ s) : containsSub pat t = false := by
  induction s with
  | nil =>
    rw [List.suffix_nil] at hsuf
    subst hsuf
    exact h
  | cons c tl ih =>
    rcases List.suffix_cons_iff.mp hsuf with rfl | h2
    · exact h
    · exact ih (containsSub_tail h) h2

/-- The marker `SlowQuery:` (without the trailing space), whose absence the
specification promises to imply zero extracted records. -/
def sqMarkerBare : Str := str "SlowQuery:"

theorem slowHere_none_of_no_marker {s : Str} (h : containsSub sqMarkerBare s = false) :
    slowHere s = none := by
  rw [slowHere]
  cases h1 : stripLit sqMarker s with
  | none => rfl
  | some r1 =>
    have hp : sqMarker.isPrefixOf s = true := stripLit_isPrefixOf h1
    have hms : sqMarker = sqMarkerBare ++ [' '] := by decide
    rw [hms] at hp
    have hb : sqMarkerBare.isPrefixOf s = true := isPrefixOf_of_append hp
    rw [containsSub_of_isPrefixOf hb] at h
    cases h

theorem findSlow_none_of_no_marker {s : Str} (h : containsSub sqMarkerBare s = false) :
    findSlow s = none := by
  induction s with
  | nil => rfl
  | cons c tl ih =>
    rw [findSlow, slowHere_none_of_no_marker h]
    exact ih (containsSub_tail h)

theorem matchShape_suffix {toks : List TsTok} {s r : Str}
    (h : matchShape toks s = some r) : r <:+ s := by
  induction toks generalizing s with
  | nil =>
    rw [matchShape, Option.some_inj] at h
    exact h ▸ List.suffix_rfl
  | cons t ts ih =>
    cases t with
    | dig n =>
      rw [matchShape] at h
      rw [takeDigitsN] at h
      by_cases hc : (s.take n).length = n ∧ (s.take n).all Char.isDigit
      · rw [if_pos hc] at h
        rw [Option.some_bind] at h
        exact (ih h).trans (List.drop_suffix n s)
      · rw [if_neg hc] at h
        cases h
    | ch c =>
      cases s with
      | nil => cases h
      | cons x tl =>
        rw [matchShape] at h
        by_cases hx : x = c
        · rw [if_pos hx] at h
          exact (ih h).trans (List.suffix_cons x tl)
        · rw [if_neg hx] at h
          cases h

theorem tryMatchAt_none_of_no_marker {s : Str} (h : containsSub sqMarkerBare s = false) :
    tryMatchAt s = none := by
  rw [tryMatchAt]
  split
  · rfl
  next rest h1 =>
    rw [findSlow_none_of_no_marker (containsSub_suffix h (matchShape_suffix h1))]

theorem findAllAux_nil_of_no_marker (fuel : Nat) :
    ∀ s : Str, containsSub sqMarkerBare s = false → findAllAux fuel s = [] := by
  induction fuel with
  | zero => intro s _; rfl
  | succ n ih =>
    intro s h
    cases s with
    | nil => rfl
    | cons c tl =>
      rw [findAllAux, tryMatchAt_none_of_no_marker h]
      exact ih tl (containsSub_tail h)

/-- Text without the `SlowQuery:` marker yields zero matches. -/
theorem findAll_nil_of_no_marker {s : Str} (h : containsSub sqMarkerBare s = false) :
    findAll s = [] :=
  findAllAux_nil_of_no_marker s.length s h

theorem slowHere_digits {s d cap rest : Str} (h : slowHere s = some (d, cap, rest)) :
    d ≠ [] ∧ d.all Char.isDigit = true := by
  rw [slowHere] at h
  split at h
  · cases h
  next r1 h1 =>
    split at h
    · cases h
    next hd =>
      split at h
      · cases h
      next r3 h2 =>
        split at h
        · cases h
        next cap2 rest2 h3 =>
          rw [Option.some_inj] at h
          injection h with h4 h5
          subst h4
          have hall : (r1.takeWhile Char.isDigit).all Char.isDigit = true := by
            rw [List.all_eq_true]
            intro c hc
            exact List.mem_takeWhile_imp hc
          exact ⟨hd, hall⟩

theorem findSlow_digits {s d cap rest : Str} (h : findSlow s = some (d, cap, rest)) :
    d ≠ [] ∧ d.all Char.isDigit = true := by
  induction s with
  | nil => cases h
  | cons c tl ih =>
    rw [findSlow] at h
    split at h
    next x h1 =>
      rw [Option.some_inj] at h
      subst h
      exact slowHere_digits h1
    next h1 => exact ih h

theorem tryMatchAt_digits {s : Str} {m : RawMatch} {rest : Str}
    (h : tryMatchAt s = some (m, rest)) :
    m.time_digits ≠ [] ∧ m.time_digits.all Char.isDigit = true := by
  rw [tryMatchAt] at h
  split at h
  · cases h
  next r h1 =>
    split at h
    · cases h
    next d cap rest2 h2 =>
      rw [Option.some_inj] at h
      injection h with hm hr
      rw [← hm]
      exact findSlow_digits h2

theorem findAllAux_digits (fuel : Nat) :
    ∀ (s : Str) (m : RawMatch), m ∈ findAllAux fuel s →
      m.time_digits ≠ [] ∧ m.time_digits.all Char.isDigit = true := by
  induction fuel with
  | zero => intro s m hm; cases hm
  | succ n ih =>
    intro s m hm
    cases s with
    | nil => cases hm
    | cons c tl =>
      rw [findAllAux] at hm
      split at hm
      next m2 rest h1 =>
        rcases List.mem_cons.mp hm with rfl | hm2
        · exact tryMatchAt_digits h1
        · exact ih rest m hm2
      next h1 => exact ih tl m hm

/-- Every capture of the `(\d+)` group across a whole file is a nonempty
digit run. -/
theorem findAll_digits {s : Str} {m : RawMatch} (hm : m ∈ findAll s) :
    m.time_digits ≠ [] ∧ m.time_digits.all Char.isDigit = true :=
  findAllAux_digits s.length s m hm

/-! ### Character-level facts: lowercasing produces no ASCII uppercase -/

theorem char_toNat_ofNat_valid {n : Nat} (h : n < 55296) : (Char.ofNat n).toNat = n := by
  rw [Char.ofNat, dif_pos (Or.inl h)]
  rfl

theorem le_toNat {a b : Char} (h : a ≤ b) : a.toNat ≤ b.toNat := by
  rw [Char.le_def] at h
  exact h

theorem isUpperAscii_toLowerChar (c : Char) : isUpperAscii (toLowerChar c) = false := by
  rw [toLowerChar]
  by_cases h : isUpperAscii c = true
  · rw [if_pos h]
    rw [isUpperAscii, Bool.and_eq_true] at h
    obtain ⟨h1, h2⟩ := h
    have h1 := le_toNat (of_decide_eq_true h1)
    have h2 := le_toNat (of_decide_eq_true h2)
    have hA : (Char.ofNat 65).toNat = 65 := rfl
    have hZ : (Char.ofNat 90).toNat = 90 := rfl
    rw [hA] at h1
    rw [hZ] at h2
    have hv : (Char.ofNat (c.toNat + 32)).toNat = c.toNat + 32 :=
      char_toNat_ofNat_valid (by omega)
    rw [isUpperAscii, Bool.and_eq_false_iff]
    right
    rw [decide_eq_false_iff_not]
    intro hle
    have h3 := le_toNat hle
    rw [hZ, hv] at h3
    omega
  · rw [if_neg h]
    exact Bool.not_eq_true _ |>.mp h

theorem lowerStr_not_upper {q : Str} {c : Char} (hc : c ∈ lowerStr q) :
    isUpperAscii c = false := by
  rw [lowerStr] at hc
  rcases List.mem_map.mp hc with ⟨a, -, rfl⟩
  exact isUpperAscii_toLowerChar a

/-! ### The classifier returns word-character tables drawn from its input -/

theorem stripLit_suffix {p s r : Str} (h : stripLit p s = some r) : r <:+ s := by
  induction p generalizing s with
  | nil =>
    rw [stripLit, Option.some_inj] at h
    exact h ▸ List.suffix_rfl
  | cons a pt ih =>
    cases s with
    | nil => cases h
    | cons c ct =>
      rw [stripLit] at h
      by_cases hac : a = c
      · rw [if_pos hac] at h
        exact (ih h).trans (List.suffix_cons c ct)
      · rw [if_neg hac] at h
        cases h

theorem matchToks_suffix {toks : List PatTok} {s r : Str}
    (h : matchToks toks s = some r) : r <:+ s := by
  induction toks generalizing s with
  | nil =>
    rw [matchToks, Option.some_inj] at h
    exact h ▸ List.suffix_rfl
  | cons t ts ih =>
    cases t with
    | lit l =>
      rw [matchToks] at h
      cases h1 : stripLit l s with
      | none => rw [h1] at h; cases h
      | some r1 =>
        rw [h1, Option.some_bind] at h
        exact (ih h).trans (stripLit_suffix h1)
    | ws =>
      cases s with
      | nil => cases h
      | cons c tl =>
        rw [matchToks] at h
        by_cases hc : isSpaceChar c = true
        · rw [if_pos hc] at h
          exact ((ih h).trans (List.dropWhile_suffix isSpaceChar)).trans
            (List.suffix_cons c tl)
        · rw [if_neg hc] at h
          cases h

theorem matchCapture_spec {toks : List PatTok} {s w : Str}
    (h : matchCapture toks s = some w) :
    w ≠ [] ∧ ∀ c ∈ w, isWordChar c = true ∧ c ∈ s := by
  rw [matchCapture] at h
  cases h1 : matchToks toks s with
  | none => rw [h1] at h; cases h
  | some r =>
    rw [h1, Option.some_bind] at h
    by_cases hw : r.takeWhile isWordChar = []
    · rw [if_pos hw] at h; cases h
    · rw [if_neg hw, Option.some_inj] at h
      subst h
      refine ⟨hw, ?_⟩
      intro c hc
      refine ⟨List.mem_takeWhile_imp hc, ?_⟩
      exact (matchToks_suffix h1).subset ((List.takeWhile_sublist isWordChar).subset hc)

theorem reSearch_spec {toks : List PatTok} {s w : Str}
    (h : reSearch toks s = some w) :
    w ≠ [] ∧ ∀ c ∈ w, isWordChar c = true ∧ c ∈ s := by
  induction s with
  | nil => cases h
  | cons c0 tl ih =>
    rw [reSearch] at h
    cases h1 : matchCapture toks (c0 :: tl) with
    | none =>
      rw [h1] at h
      obtain ⟨hne, hall⟩ := ih h
      exact ⟨hne, fun c hc => ⟨(hall c hc).1, List.mem_cons_of_mem c0 (hall c hc).2⟩⟩
    | some w2 =>
      rw [h1, Option.some_inj] at h
      subst h
      exact matchCapture_spec h1

/-- Operation tags the classifier can produce. -/
def opSet (o : Str) : Prop :=
  o = str "SELECT" ∨ o = str "INSERT" ∨ o = str "UPDATE" ∨ o = str "DELETE" ∨ o = str "OTHER"

/-- A well-formed table name: the sentinel, or a nonempty run of word
characters none of which is ASCII uppercase. -/
def tableWF (t : Str) : Prop :=
  t = str "unknown" ∨ (t ≠ [] ∧ ∀ c ∈ t, isWordChar c = true ∧ isUpperAscii c = false)

theorem reSearch_tableWF {toks : List PatTok} {q : Str} :
    tableWF ((reSearch toks (lowerStr q)).getD unknownTable) := by
  cases h : reSearch toks (lowerStr q) with
  | none => exact Or.inl rfl
  | some w =>
    right
    obtain ⟨hne, hall⟩ := reSearch_spec h
    exact ⟨hne, fun c hc => ⟨(hall c hc).1, lowerStr_not_upper (hall c hc).2⟩⟩

theorem extract_operation_and_table_spec (q : Str) :
    opSet (extract_operation_and_table q).1 ∧ tableWF (extract_operation_and_table q).2 := by
  rw [extract_operation_and_table]
  by_cases h1 : startsWith (str "select") (lowerStr q) = true
  · rw [if_pos h1]
    exact ⟨Or.inl rfl, reSearch_tableWF⟩
  · rw [if_neg h1]
    by_cases h2 : startsWith (str "insert") (lowerStr q) = true
    · rw [if_pos h2]
      exact ⟨Or.inr (Or.inl rfl), reSearch_tableWF⟩
    · rw [if_neg h2]
      by_cases h3 : startsWith (str "update") (lowerStr q) = true
      · rw [if_pos h3]
        exact ⟨Or.inr (Or.inr (Or.inl rfl)), reSearch_tableWF⟩
      · rw [if_neg h3]
        by_cases h4 : startsWith (str "delete") (lowerStr q) = true
        · rw [if_pos h4]
          exact ⟨Or.inr (Or.inr (Or.inr (Or.inl rfl))), reSearch_tableWF⟩
        · rw [if_neg h4]
          exact ⟨Or.inr (Or.inr (Or.inr (Or.inr rfl))), Or.inl rfl⟩

/-! ### Record and state invariants (claim C6 machinery) -/

/-- Well-formedness of one extracted record: the derived `query_type`, a
known operation tag, and a lowercase word-character table name. -/
def recordWF (q : QueryInfo) : Prop :=
  q.query_type = q.operation ++ [' '] ++ q.table ∧
  opSet q.operation ∧ tableWF q.table

/-- Well-formedness of analyzer state: every record is well formed and
every group member carries exactly its group's key. -/
def stateWF (st : AnalyzerState) : Prop :=
  (∀ q ∈ st.queries, recordWF q) ∧
  (∀ p ∈ st.query_groups, ∀ q ∈ p.2, q.query_type = p.1)

theorem mkQueryInfo_wf (filePath : Str) (m : RawMatch) : recordWF (mkQueryInfo filePath m) := by
  obtain ⟨hop, htab⟩ := extract_operation_and_table_spec (pyStrip m.sql)
  exact ⟨rfl, hop, htab⟩

theorem groupsInsert_member_src {g : List (Str × List QueryInfo)} {key : Str} {q : QueryInfo}
    {p : Str × List QueryInfo} (hp : p ∈ groupsInsert g key q) :
    ∀ r ∈ p.2, (∃ p0 ∈ g, p0.1 = p.1 ∧ r ∈ p0.2) ∨ (r = q ∧ p.1 = key) := by
  induction g with
  | nil =>
    rw [groupsInsert] at hp
    rcases List.mem_singleton.mp hp with rfl
    intro r hr
    rcases List.mem_singleton.mp hr with rfl
    exact Or.inr ⟨rfl, rfl⟩
  | cons hd tl ih =>
    obtain ⟨k, l⟩ := hd
    by_cases hk : k = key
    · rw [groupsInsert, if_pos hk] at hp
      rcases List.mem_cons.mp hp with rfl | hp2
      · intro r hr
        rcases List.mem_append.mp hr with h1 | h1
        · exact Or.inl ⟨(k, l), List.mem_cons_self _ _, rfl, h1⟩
        · rcases List.mem_singleton.mp h1 with rfl
          exact Or.inr ⟨rfl, hk⟩
      · intro r hr
        exact Or.inl ⟨p, List.mem_cons_of_mem _ hp2, rfl, hr⟩
    · rw [groupsInsert, if_neg hk] at hp
      rcases List.mem_cons.mp hp with rfl | hp2
      · intro r hr
        exact Or.inl ⟨(k, l), List.mem_cons_self _ _, rfl, hr⟩
      · intro r hr
        rcases ih hp2 r hr with ⟨p0, hp0, he, hm⟩ | h
        · exact Or.inl ⟨p0, List.mem_cons_of_mem _ hp0, he, hm⟩
        · exact Or.inr h

theorem stateWF_ingest {st : AnalyzerState} {q : QueryInfo}
    (h : stateWF st) (hq : recordWF q) : stateWF (ingest st q) := by
  obtain ⟨hrec, hgrp⟩ := h
  constructor
  · intro r hr
    rcases List.mem_append.mp hr with h1 | h1
    · exact hrec r h1
    · rcases List.mem_singleton.mp h1 with rfl
      exact hq
  · intro p hp r hr
    rcases groupsInsert_member_src hp r hr with ⟨p0, hp0, he, hm⟩ | ⟨rfl, he⟩
    · exact he ▸ hgrp p0 hp0 r hm
    · exact he.symm

theorem stateWF_ingestAll {recs : List QueryInfo} (hrecs : ∀ q ∈ recs, recordWF q) :
    ∀ st : AnalyzerState, stateWF st → stateWF (ingestAll st recs) := by
  induction recs with
  | nil => intro st h; exact h
  | cons r tl ih =>
    intro st h
    exact ih (fun q hq => hrecs q (List.mem_cons_of_mem r hq))
      (ingest st r) (stateWF_ingest h (hrecs r (List.mem_cons_self r tl)))

theorem stateWF_parse_single_file {st : AnalyzerState} (filePath content : Str)
    (h : stateWF st) : stateWF (parse_single_file st filePath content).1 := by
  rw [parse_single_file]
  by_cases hc : content = []
  · rw [if_pos hc]
    exact h
  · rw [if_neg hc]
    by_cases hm : findAll content = []
    · rw [if_pos hm]
      exact h
    · rw [if_neg hm]
      have hwf : stateWF (ingestAll st ((findAll content).map (mkQueryInfo filePath))) := by
        refine stateWF_ingestAll ?_ st h
        intro q hq
        rcases List.mem_map.mp hq with ⟨m, -, rfl⟩
        exact mkQueryInfo_wf filePath m
      exact ⟨hwf.1, hwf.2⟩

theorem stateWF_empty : stateWF emptyState := by
  constructor <;> simp [emptyState]

theorem stateWF_parse_log_files (files : List (Str × Str)) :
    stateWF (parse_log_files files) := by
  rw [parse_log_files]
  have h0 : stateWF { emptyState with file_list := files.map Prod.fst } :=
    ⟨stateWF_empty.1, stateWF_empty.2⟩
  generalize { emptyState with file_list := files.map Prod.fst } = st0 at h0 ⊢
  induction files generalizing st0 with
  | nil => exact h0
  | cons f tl ih =>
    rw [List.foldl_cons]
    exact ih _ (stateWF_parse_single_file f.1 f.2 h0)

/-! ### Append-only persistence of already-ingested data -/

theorem lookupGroup_groupsInsert (g : List (Str × List QueryInfo)) (key : Str)
    (q : QueryInfo) (k : Str) :
    lookupGroup (groupsInsert g key q) k =
      if k = key then lookupGroup g k ++ [q] else lookupGroup g k := by
  induction g with
  | nil =>
    simp only [groupsInsert, lookupGroup]
    by_cases hk : k = key
    · rw [if_pos hk.symm, if_pos hk, List.nil_append]
    · rw [if_neg (fun h => hk h.symm), if_neg hk]
  | cons hd tl ih =>
    obtain ⟨k0, l⟩ := hd
    by_cases h0 : k0 = key
    · rw [groupsInsert, if_pos h0]
      simp only [lookupGroup]
      by_cases hk : k0 = k
      · rw [if_pos hk, if_pos (by rw [← hk, h0]), if_pos hk]
      · rw [if_neg hk, if_neg (fun h => hk (h0.trans h.symm)), if_neg hk]
    · rw [groupsInsert, if_neg h0]
      simp only [lookupGroup]
      by_cases hk : k0 = k
      · rw [if_pos hk, if_neg (fun h => h0 (hk.trans h)), if_pos hk]
      · rw [if_neg hk, ih, if_neg hk]

theorem lookupGroup_ingest (st : AnalyzerState) (q : QueryInfo) (k : Str) :
    lookupGroup (ingest st q).query_groups k =
      if k = q.query_type then lookupGroup st.query_groups k ++ [q]
      else lookupGroup st.query_groups k :=
  lookupGroup_groupsInsert st.query_groups q.query_type q k

theorem lookupGroup_ingestAll_prefix (recs : List QueryInfo) :
    ∀ (st : AnalyzerState) (k : Str),
      lookupGroup st.query_groups k <+: lookupGroup (ingestAll st recs).query_groups k := by
  induction recs with
  | nil => intro st k; exact List.prefix_rfl
  | cons r tl ih =>
    intro st k
    have h2 := ih (ingest st r) k
    refine List.IsPrefix.trans ?_ h2
    rw [lookupGroup_ingest]
    by_cases hk : k = r.query_type
    · rw [if_pos hk]
      exact ⟨[r], rfl⟩
    · rw [if_neg hk]

theorem queries_prefix_parse_single_file (st : AnalyzerState) (filePath content : Str) :
    st.queries <+: (parse_single_file st filePath content).1.queries := by
  rw [parse_single_file]
  by_cases hc : content = []
  · rw [if_pos hc]
  · rw [if_neg hc]
    by_cases hm : findAll content = []
    · rw [if_pos hm]
    · rw [if_neg hm]
      show st.queries <+: (ingestAll st ((findAll content).map (mkQueryInfo filePath))).queries
      rw [ingestAll_queries]
      exact ⟨_, rfl⟩

theorem lookupGroup_prefix_parse_single_file (st : AnalyzerState) (filePath content k : Str) :
    lookupGroup st.query_groups k <+:
      lookupGroup (parse_single_file st filePath content).1.query_groups k := by
  rw [parse_single_file]
  by_cases hc : content = []
  · rw [if_pos hc]
  · rw [if_neg hc]
    by_cases hm : findAll content = []
    · rw [if_pos hm]
    · rw [if_neg hm]
      show lookupGroup st.query_groups k <+:
        lookupGroup (ingestAll st ((findAll content).map (mkQueryInfo filePath))).query_groups k
      exact lookupGroup_ingestAll_prefix _ st k

/-! ### Leftmost-match characterization of the classifier search (claim C3) -/

theorem matchCapture_nil (toks : List PatTok) : matchCapture toks ([] : Str) = none := by
  rw [matchCapture]
  cases h : matchToks toks [] with
  | none => rfl
  | some r =>
    have hr : r = [] := List.suffix_nil.mp (matchToks_suffix h)
    subst hr
    rfl

/-- Index-based statement of `re.search`: the capture at the least start
position at which the pattern matches. -/
def searchIdx (toks : List PatTok) (s : Str) : Option Str :=
  (List.range (s.length + 1)).findSome? fun p => matchCapture toks (s.drop p)

theorem reSearch_eq_searchIdx (toks : List PatTok) (s : Str) :
    reSearch toks s = searchIdx toks s := by
  induction s with
  | nil =>
    rw [reSearch, searchIdx]
    simp only [List.length_nil, List.range_succ_eq_map, List.range_zero, List.map_nil,
      List.findSome?_cons, List.drop_nil, matchCapture_nil]
    rfl
  | cons c tl ih =>
    rw [reSearch, searchIdx]
    have hlen : (c :: tl : Str).length + 1 = (tl.length + 1) + 1 := rfl
    rw [hlen, List.range_succ_eq_map, List.findSome?_cons]
    cases h : matchCapture toks ((c :: tl : Str).drop 0) with
    | some w =>
      rw [show ((c :: tl : Str).drop 0) = c :: tl from rfl] at h
      rw [h]
    | none =>
      rw [show ((c :: tl : Str).drop 0) = c :: tl from rfl] at h
      rw [h, List.findSome?_map]
      rw [ih, searchIdx]
      rfl

/-- The classifier with each `re.search` stated as its leftmost-match
characterization; extensionally equal to `extract_operation_and_table`. -/
def classifyAmended (query : Str) : Str × Str :=
  let query_lower := lowerStr query
  if startsWith (str "select") query_lower then
    (str "SELECT", (searchIdx [.lit (str "from"), .ws] query_lower).getD unknownTable)
  else if startsWith (str "insert") query_lower then
    (str "INSERT",
      (searchIdx [.lit (str "insert"), .ws, .lit (str "into"), .ws] query_lower).getD unknownTable)
  else if startsWith (str "update") query_lower then
    (str "UPDATE", (searchIdx [.lit (str "update"), .ws] query_lower).getD unknownTable)
  else if startsWith (str "delete") query_lower then
    (str "DELETE",
      (searchIdx [.lit (str "delete"), .ws, .lit (str "from"), .ws] query_lower).getD unknownTable)
  else
    (str "OTHER", unknownTable)

/-- The classifier as the specification of claim C3 reads: the keyword must
occur at a word boundary (no word character on either side). Used only to
exhibit the divergence between the code and the claim's wording. -/
def kwAtBoundary (kw : Str) (s : Str) (p : Nat) : Bool :=
  kw.isPrefixOf (s.drop p) &&
  (decide (p = 0) || !isWordChar (s.getD (p - 1) ' ')) &&
  (decide (s.length ≤ p + kw.length) || !isWordChar (s.getD (p + kw.length) ' '))

/-- First identifier (maximal word-character run) in a string, if any. -/
def identAfter (s : Str) : Option Str :=
  if (s.dropWhile (fun c => !isWordChar c)).takeWhile isWordChar = [] then none
  else some ((s.dropWhile (fun c => !isWordChar c)).takeWhile isWordChar)

/-- Table lookup following claim C3's wording: the first identifier after
the leftmost word-boundary occurrence of the keyword, else `unknown`. -/
def boundaryTable (kw : Str) (s : Str) : Str :=
  match (List.range (s.length + 1)).find? (kwAtBoundary kw s) with
  | none => unknownTable
  | some p => (identAfter (s.drop (p + kw.length))).getD unknownTable

/-- Claim C3's classifier, with word-boundary keyword matching. -/
def classifySpecC3 (query : Str) : Str × Str :=
  let query_lower := lowerStr query
  if startsWith (str "select") query_lower then
    (str "SELECT", boundaryTable (str "from") query_lower)
  else if startsWith (str "insert") query_lower then
    (str "INSERT", boundaryTable (str "insert into") query_lower)
  else if startsWith (str "update") query_lower then
    (str "UPDATE", boundaryTable (str "update") query_lower)
  else if startsWith (str "delete") query_lower then
    (str "DELETE", boundaryTable (str "delete from") query_lower)
  else
    (str "OTHER", unknownTable)

/-! ### Structure of `str.strip()` (claim C7) -/

theorem eq_dropWhile_rev_append {α : Type} (p : α → Bool) (l : List α) :
    l = (l.reverse.dropWhile p).reverse ++ (l.reverse.takeWhile p).reverse := by
  conv_lhs =>
    rw [← List.reverse_reverse l, ← List.takeWhile_append_dropWhile p l.reverse]
  rw [List.reverse_append]

theorem pyStrip_decomp (s : Str) :
    s = s.takeWhile isSpaceChar ++ (pyStrip s ++
      ((s.dropWhile isSpaceChar).reverse.takeWhile isSpaceChar).reverse) := by
  conv_lhs => rw [← List.takeWhile_append_dropWhile isSpaceChar s]
  rw [pyStrip]
  congr 1
  exact eq_dropWhile_rev_append isSpaceChar (s.dropWhile isSpaceChar)

theorem all_takeWhile {α : Type} (p : α → Bool) (l : List α) :
    (l.takeWhile p).all p = true := by
  rw [List.all_eq_true]
  intro a ha
  exact List.mem_takeWhile_imp ha

theorem all_reverse_takeWhile {α : Type} (p : α → Bool) (l : List α) :
    (l.takeWhile p).reverse.all p = true := by
  rw [List.all_eq_true]
  intro a ha
  exact List.mem_takeWhile_imp (List.mem_reverse.mp ha)

theorem head_not_space_pyStrip {s : Str} {c : Char} (h : (pyStrip s).head? = some c) :
    isSpaceChar c = false := by
  have hdec := eq_dropWhile_rev_append isSpaceChar (s.dropWhile isSpaceChar)
  have hA : ((s.dropWhile isSpaceChar).reverse.dropWhile isSpaceChar).reverse = pyStrip s := rfl
  rw [hA] at hdec
  cases hps : pyStrip s with
  | nil => rw [hps] at h; cases h
  | cons c0 t =>
    rw [hps, List.head?_cons, Option.some_inj] at h
    rw [hps, List.cons_append] at hdec
    have hmhead : (s.dropWhile isSpaceChar).head? = some c := by
      rw [hdec, List.head?_cons, h]
    have hnot := List.head?_dropWhile_not isSpaceChar s
    rw [hmhead] at hnot
    exact hnot

theorem last_not_space_pyStrip {s : Str} {c : Char} (h : (pyStrip s).getLast? = some c) :
    isSpaceChar c = false := by
  rw [pyStrip, List.getLast?_reverse] at h
  have hnot := List.head?_dropWhile_not isSpaceChar (s.dropWhile isSpaceChar).reverse
  rw [h] at hnot
  exact hnot

/-! ### Frame lemmas for files that contribute nothing (claim C9) -/

theorem parse_single_file_no_match {st : AnalyzerState} {filePath content : Str}
    (h : findAll content = []) : parse_single_file st filePath content = (st, 0) := by
  rw [parse_single_file]
  by_cases hc : content = []
  · rw [if_pos hc]
  · rw [if_neg hc, if_pos h]

theorem parse_single_file_file_list (st : AnalyzerState) (filePath content : Str) :
    (parse_single_file st filePath content).1.file_list = st.file_list := by
  rw [parse_single_file]
  by_cases hc : content = []
  · rw [if_pos hc]
  · rw [if_neg hc]
    by_cases hm : findAll content = []
    · rw [if_pos hm]
    · rw [if_neg hm]
      show (ingestAll st ((findAll content).map (mkQueryInfo filePath))).file_list = st.file_list
      rw [ingestAll_file_list]

theorem foldl_parse_file_list (files : List (Str × Str)) :
    ∀ st0 : AnalyzerState,
      (files.foldl (fun st pc => (parse_single_file st pc.1 pc.2).1) st0).file_list
        = st0.file_list := by
  induction files with
  | nil => intro st0; rfl
  | cons f tl ih =>
    intro st0
    rw [List.foldl_cons, ih, parse_single_file_file_list]

theorem parse_log_files_file_list (files : List (Str × Str)) :
    (parse_log_files files).file_list = files.map Prod.fst := by
  rw [parse_log_files, foldl_parse_file_list]

/-! ### Order properties of the three ranking comparisons (claim C2) -/

theorem hitsLe_total (a b : GroupStat) : hitsLe a b = true ∨ hitsLe b a = true := by
  rw [hitsLe, hitsLe, decide_eq_true_eq, decide_eq_true_eq]
  omega

theorem hitsLe_trans (a b c : GroupStat) (h1 : hitsLe a b = true) (h2 : hitsLe b c = true) :
    hitsLe a c = true := by
  rw [hitsLe, decide_eq_true_eq] at h1 h2 ⊢
  omega

theorem totalLe_total (a b : GroupStat) : totalLe a b = true ∨ totalLe b a = true := by
  rw [totalLe, totalLe, decide_eq_true_eq, decide_eq_true_eq]
  omega

theorem totalLe_trans (a b c : GroupStat) (h1 : totalLe a b = true) (h2 : totalLe b c = true) :
    totalLe a c = true := by
  rw [totalLe, decide_eq_true_eq] at h1 h2 ⊢
  omega

theorem timeLe_total (a b : QueryInfo) : timeLe a b = true ∨ timeLe b a = true := by
  rw [timeLe, timeLe, decide_eq_true_eq, decide_eq_true_eq]
  omega

theorem timeLe_trans (a b c : QueryInfo) (h1 : timeLe a b = true) (h2 : timeLe b c = true) :
    timeLe a c = true := by
  rw [timeLe, decide_eq_true_eq] at h1 h2 ⊢
  omega

theorem filter_take_prefix_filter {α : Type} (p : α → Bool) (k : Nat) (l : List α) :
    (l.take k).filter p <+: l.filter p := by
  conv_rhs => rw [← List.take_append_drop k l]
  rw [List.filter_append]
  exact ⟨_, rfl⟩

/-! ### Ingested groups viewed through the group rankers (claim C1) -/

theorem mkGroupStat_members {recs : List QueryInfo} {p : Str × List QueryInfo}
    (hp : p ∈ (ingestAll emptyState recs).query_groups) :
    p.2 = recs.filter (hasType p.1) ∧ p.2 ≠ [] := by
  obtain ⟨-, hent, -⟩ := groupsWF_ingestAll recs
  have h := hent p hp
  rw [ingestAll_queries, show emptyState.queries = [] from rfl, List.nil_append] at h
  exact h

/-! ### Example inputs used by the witnesses -/

/-- The boundary-example file content of claim C4. -/
def c4content : Str :=
  str "2024-01-01 10:00:00.123 ... SlowQuery: 1500 milliseconds. SQL: 'exec wrapping select * from foo'"

/-- The same entry with both non-greedy spans crossing a newline. -/
def c4contentNl : Str :=
  str "2024-01-01 10:00:00.123 a\nb SlowQuery: 1500 milliseconds. SQL: 'exec\nwrapping select * from foo'"

/-- The raw regex match the C4 content produces. -/
def c4match : RawMatch :=
  ⟨str "2024-01-01 10:00:00.123", str "1500", str "select * from foo"⟩

/-- Two records of the same query type, for exercising the group rankers. -/
def c1recs : List QueryInfo :=
  [⟨str "2024-01-01 00:00:00.000", 3, str "SELECT", str "foo", str "SELECT foo",
    str "select * from foo", str "select * from foo", str "a.log"⟩,
   ⟨str "2024-01-01 00:00:00.000", 5, str "SELECT", str "foo", str "SELECT foo",
    str "select * from foo", str "select * from foo", str "a.log"⟩]

/-- The single group summary the `c1recs` ingestion produces. -/
def c1stat : GroupStat := mkGroupStat (str "SELECT foo") c1recs

/-- A nonempty analyzer state for the statistics witness. -/
def c5state : AnalyzerState := ingestAll emptyState c1recs

/-- A capture with surrounding whitespace, exhibiting the strip in C7. -/
def c7content : Str :=
  str "2024-01-01 10:00:00.123 q SlowQuery: 5 milliseconds. SQL: 'exec wrapping select * from t '"

/-- Two files with one slow query each sharing the basename `repository.log`. -/
def c10content1 : Str :=
  str "2024-01-01 10:00:00.123 x SlowQuery: 5 milliseconds. SQL: 'e wrapping select * from a'"

/-- Second C10 file content, one character longer than the first. -/
def c10content2 : Str :=
  str "2024-01-02 10:00:00.123 xx SlowQuery: 7 milliseconds. SQL: 'e wrapping select * from b'"

/-- The two C10 input files, same basename in different directories. -/
def c10files : List (Str × Str) :=
  [(str "dir1/repository.log", c10content1), (str "dir2/repository.log", c10content2)]

/-! ### The claims -/

/-- Claim C1: every group row produced by `get_top_k_by_hits` or
`get_top_k_by_total_time` reports `hits` equal to the number of ingested
records of its query type, `total_time` their summed execution time,
`avg_time` the exact (rational) quotient `total_time / hits`, and
`max_time` / `min_time` the maximum / minimum of the members' times. -/
theorem claim_C1 (recs : List QueryInfo) (k : Nat) (e : GroupStat)
    (he : e ∈ get_top_k_by_hits (ingestAll emptyState recs) k ∨
          e ∈ get_top_k_by_total_time (ingestAll emptyState recs) k) :
    e.hits = (recs.filter (hasType e.query_type)).length ∧
    e.total_time =
      ((recs.filter (hasType e.query_type)).map (fun q => q.execution_time)).sum ∧
    e.avg_time = (e.total_time : ℚ) / (e.hits : ℚ) ∧
    e.max_time ∈ (recs.filter (hasType e.query_type)).map (fun q => q.execution_time) ∧
    (∀ t ∈ (recs.filter (hasType e.query_type)).map (fun q => q.execution_time),
      t ≤ e.max_time) ∧
    e.min_time ∈ (recs.filter (hasType e.query_type)).map (fun q => q.execution_time) ∧
    (∀ t ∈ (recs.filter (hasType e.query_type)).map (fun q => q.execution_time),
      e.min_time ≤ t) := by
  have hmem : e ∈ ((ingestAll emptyState recs).query_groups.map fun p => mkGroupStat p.1 p.2) := by
    rcases he with he | he
    · rw [get_top_k_by_hits] at he
      exact mem_sortS.mp ((List.take_sublist k _).subset he)
    · rw [get_top_k_by_total_time] at he
      exact mem_sortS.mp ((List.take_sublist k _).subset he)
  rcases List.mem_map.mp hmem with ⟨p, hp, rfl⟩
  obtain ⟨hfil, hne⟩ := mkGroupStat_members hp
  have hqt : (mkGroupStat p.1 p.2).query_type = p.1 := rfl
  rw [hqt, ← hfil]
  have hnet : p.2.map (fun q => q.execution_time) ≠ [] := by
    rw [Ne, List.map_eq_nil_iff]
    exact hne
  refine ⟨rfl, rfl, rfl, listMax_mem hnet, ?_, listMin_mem hnet, ?_⟩
  · intro t ht
    exact le_listMax ht
  · intro t ht
    exact listMin_le ht

/-- Witness for claim C1 at a concrete two-record ingestion. -/
theorem claim_C1_witness : c1stat.hits = 2 ∧ c1stat.total_time = 8 := by
  have hmem : c1stat ∈ get_top_k_by_hits (ingestAll emptyState c1recs) 5 := by
    rw [show get_top_k_by_hits (ingestAll emptyState c1recs) 5 = [c1stat] from rfl]
    exact List.mem_singleton_self _
  have h := claim_C1 c1recs 5 c1stat (Or.inl hmem)
  refine ⟨?_, ?_⟩
  · rw [h.1]
    decide
  · rw [h.2.1]
    decide

/-- Claim C2: the by-hits ranking is non-increasing lexicographically in
`(hits, total_time)`, the by-total-time ranking non-increasing in
`total_time`, the by-individual-time ranking non-increasing in execution
time with exact ties kept in insertion order (a prefix of the stable filter
of the flat list), and each ranking has length `min k available` with no
padding or error for large `k`. -/
theorem claim_C2 (st : AnalyzerState) (k t : Nat) :
    (get_top_k_by_hits st k).Pairwise
      (fun a b => b.hits < a.hits ∨ (b.hits = a.hits ∧ b.total_time ≤ a.total_time)) ∧
    (get_top_k_by_total_time st k).Pairwise (fun a b => b.total_time ≤ a.total_time) ∧
    (get_top_k_by_time st k).Pairwise (fun a b => b.execution_time ≤ a.execution_time) ∧
    (get_top_k_by_time st k).filter (fun q => decide (q.execution_time = t)) <+:
      st.queries.filter (fun q => decide (q.execution_time = t)) ∧
    (get_top_k_by_hits st k).length = min k st.query_groups.length ∧
    (get_top_k_by_total_time st k).length = min k st.query_groups.length ∧
    (get_top_k_by_time st k).length = min k st.queries.length := by
  refine ⟨?_, ?_, ?_, ?_, ?_, ?_, ?_⟩
  · exact List.Pairwise.imp (fun h => of_decide_eq_true h)
      (List.Pairwise.sublist (List.take_sublist k _)
        (pairwise_sortS hitsLe_total hitsLe_trans _))
  · exact List.Pairwise.imp (fun h => of_decide_eq_true h)
      (List.Pairwise.sublist (List.take_sublist k _)
        (pairwise_sortS totalLe_total totalLe_trans _))
  · exact List.Pairwise.imp (fun h => of_decide_eq_true h)
      (List.Pairwise.sublist (List.take_sublist k _)
        (pairwise_sortS timeLe_total timeLe_trans _))
  · have compat : ∀ a b : QueryInfo, decide (a.execution_time = t) = true →
        decide (b.execution_time = t) = true → timeLe a b = true := by
      intro a b ha hb
      rw [decide_eq_true_eq] at ha hb
      rw [timeLe, decide_eq_true_eq, ha, hb]
    have hstab := filter_sortS compat st.queries
    rw [show get_top_k_by_time st k = (sortS timeLe st.queries).take k from rfl]
    calc ((sortS timeLe st.queries).take k).filter (fun q => decide (q.execution_time = t))
        <+: (sortS timeLe st.queries).filter (fun q => decide (q.execution_time = t)) :=
          filter_take_prefix_filter _ k _
      _ = st.queries.filter (fun q => decide (q.execution_time = t)) := hstab
  · rw [get_top_k_by_hits, List.length_take, length_sortS, List.length_map]
  · rw [get_top_k_by_total_time, List.length_take, length_sortS, List.length_map]
  · rw [get_top_k_by_time, List.length_take, length_sortS]

/-- Claim C3 fails on the code: the classifier's `from\s+(\w+)` search has
no left word boundary, so in `select x_from t` the `from` inside `x_from`
matches and the classifier returns table `t`, while the claim's
word-boundary reading yields `unknown`. -/
theorem claim_C3_counterexample :
    extract_operation_and_table (str "select x_from t") = (str "SELECT", str "t") ∧
    classifySpecC3 (str "select x_from t") = (str "SELECT", str "unknown") ∧
    extract_operation_and_table (str "select x_from t") ≠
      classifySpecC3 (str "select x_from t") := by
  decide

/-- Claim C3 (amended): the classifier lowercases the trimmed fragment,
dispatches on the leading keyword, and takes as table the `(\w+)` capture
at the leftmost position where the branch's keyword pattern — keyword text
immediately followed by whitespace, with no left word-boundary requirement
— matches, else `unknown`; any other fragment yields `(OTHER, unknown)`. -/
theorem claim_C3 (query : Str) :
    extract_operation_and_table query = classifyAmended query := by
  rw [extract_operation_and_table, classifyAmended]
  simp only [reSearch_eq_searchIdx]

/-- Claim C4: the boundary example yields exactly one record with execution
time 1500 and table `foo` (also when the non-greedy spans cross newlines),
and content without the `SlowQuery:` marker yields zero records. -/
theorem claim_C4 :
    ((parse_single_file emptyState (str "repo.log") c4content).1.queries.map
        fun q => (q.execution_time, q.table)) = [(1500, str "foo")] ∧
    (parse_single_file emptyState (str "repo.log") c4content).2 = 1 ∧
    ((parse_single_file emptyState (str "repo.log") c4contentNl).1.queries.map
        fun q => (q.execution_time, q.table)) = [(1500, str "foo")] ∧
    (∀ s : Str, containsSub sqMarkerBare s = false → findAll s = []) := by
  refine ⟨by decide, by decide, by decide, ?_⟩
  intro s h
  exact findAll_nil_of_no_marker h

/-- Witness for claim C4's universally quantified no-marker clause. -/
theorem claim_C4_witness :
    containsSub sqMarkerBare (str "2024 nothing slow in here") = false ∧
    findAll (str "2024 nothing slow in here") = [] :=
  ⟨by decide, claim_C4.2.2.2 (str "2024 nothing slow in here") (by decide)⟩

/-- Claim C5: with zero ingested records `get_statistics` returns the empty
result and computes no aggregate (so no division by zero and no max or min
of an empty sequence is evaluated); with at least one record it returns the
count, group count, and total/average/max/min over the flat record list. -/
theorem claim_C5 (st : AnalyzerState) :
    (st.queries = [] → get_statistics st = none) ∧
    (st.queries ≠ [] →
      ∃ stats, get_statistics st = some stats ∧
        stats.total_slow_queries = st.queries.length ∧
        stats.unique_query_types = st.query_groups.length ∧
        stats.total_execution_time = (st.queries.map (fun q => q.execution_time)).sum ∧
        stats.average_execution_time =
          (stats.total_execution_time : ℚ) / (stats.total_slow_queries : ℚ) ∧
        stats.average_execution_time * (st.queries.length : ℚ) =
          (stats.total_execution_time : ℚ) ∧
        stats.max_execution_time ∈ st.queries.map (fun q => q.execution_time) ∧
        (∀ t ∈ st.queries.map (fun q => q.execution_time),
          t ≤ stats.max_execution_time) ∧
        stats.min_execution_time ∈ st.queries.map (fun q => q.execution_time) ∧
        (∀ t ∈ st.queries.map (fun q => q.execution_time),
          stats.min_execution_time ≤ t)) := by
  constructor
  · intro h
    rw [get_statistics, if_pos h]
  · intro h
    rw [get_statistics, if_neg h]
    have hnet : st.queries.map (fun q => q.execution_time) ≠ [] := by
      rw [Ne, List.map_eq_nil_iff]
      exact h
    have hlen : ((st.queries.length : Nat) : ℚ) ≠ 0 := by
      rw [Ne, Nat.cast_eq_zero]
      intro hl
      exact h (List.length_eq_zero.mp hl)
    refine ⟨_, rfl, rfl, rfl, rfl, rfl, ?_, listMax_mem hnet, ?_, listMin_mem hnet, ?_⟩
    · exact div_mul_cancel₀ _ hlen
    · intro t ht
      exact le_listMax ht
    · intro t ht
      exact listMin_le ht

/-- Witness for claim C5 on an empty and a nonempty state. -/
theorem claim_C5_witness :
    get_statistics emptyState = none ∧ get_statistics c5state ≠ none := by
  refine ⟨(claim_C5 emptyState).1 rfl, ?_⟩
  obtain ⟨stats, hs, -⟩ := (claim_C5 c5state).2 (by decide)
  rw [hs]
  simp

/-- Claim C6: every record ever created has `query_type` equal to
`operation ++ " " ++ table` with the operation in the fixed tag set and the
table a lowercase identifier or `unknown`; every group member carries its
group's key; and parsing only appends — records and group member lists
already present persist unchanged at their positions. -/
theorem claim_C6 (files : List (Str × Str)) (st : AnalyzerState) (path content k : Str) :
    stateWF (parse_log_files files) ∧
    st.queries <+: (parse_single_file st path content).1.queries ∧
    lookupGroup st.query_groups k <+:
      lookupGroup (parse_single_file st path content).1.query_groups k :=
  ⟨stateWF_parse_log_files files, queries_prefix_parse_single_file st path content,
    lookupGroup_prefix_parse_single_file st path content k⟩

/-- Claim C7 fails on the code: the stored `query` is the whitespace-stripped
capture, not the raw capture — on a capture with a trailing space, a
character is removed. -/
theorem claim_C7_counterexample :
    (findAll c7content).map (fun m => m.sql) = [str "select * from t "] ∧
    ((findAll c7content).map (fun m => (mkQueryInfo (str "x.log") m).query)) =
      [str "select * from t"] ∧
    ((findAll c7content).map (fun m => (mkQueryInfo (str "x.log") m).query)) ≠
      (findAll c7content).map (fun m => m.sql) := by
  decide

/-- Claim C7 (amended): the stored `query_text` is the raw capture with its
leading and trailing whitespace removed and nothing else changed: the
capture splits as spaces ++ query_text ++ spaces, and the stored text
neither starts nor ends with whitespace. -/
theorem claim_C7 (path : Str) (m : RawMatch) :
    (mkQueryInfo path m).query = pyStrip m.sql ∧
    m.sql = m.sql.takeWhile isSpaceChar ++ ((mkQueryInfo path m).query ++
      ((m.sql.dropWhile isSpaceChar).reverse.takeWhile isSpaceChar).reverse) ∧
    (m.sql.takeWhile isSpaceChar).all isSpaceChar = true ∧
    ((m.sql.dropWhile isSpaceChar).reverse.takeWhile isSpaceChar).reverse.all
      isSpaceChar = true ∧
    (∀ c, (mkQueryInfo path m).query.head? = some c → isSpaceChar c = false) ∧
    (∀ c, (mkQueryInfo path m).query.getLast? = some c → isSpaceChar c = false) := by
  refine ⟨rfl, pyStrip_decomp m.sql, all_takeWhile _ _, all_reverse_takeWhile _ _, ?_, ?_⟩
  · intro c hc
    exact head_not_space_pyStrip hc
  · intro c hc
    exact last_not_space_pyStrip hc

/-- Witness for claim C7's head condition at a concrete padded capture. -/
theorem claim_C7_witness : isSpaceChar 's' = false :=
  (claim_C7 (str "x.log") ⟨str "ts", str "5", str " select "⟩).2.2.2.2.1 's' (by decide)

/-- Claim C8: every captured execution-time text is a nonempty digit run,
so the `int()` conversion always succeeds — its failure branch is
unreachable, and no malformed capture can abort processing. -/
theorem claim_C8 (content : Str) (m : RawMatch) (hm : m ∈ findAll content) :
    m.time_digits ≠ [] ∧ m.time_digits.all Char.isDigit = true ∧
    pyInt m.time_digits = some (digitsToNat m.time_digits) := by
  obtain ⟨h1, h2⟩ := findAll_digits hm
  refine ⟨h1, h2, ?_⟩
  rw [pyInt, if_pos ⟨h1, h2⟩]

/-- Witness for claim C8 at the C4 boundary content. -/
theorem claim_C8_witness :
    c4match.time_digits ≠ [] ∧ c4match.time_digits.all Char.isDigit = true ∧
    pyInt c4match.time_digits = some (digitsToNat c4match.time_digits) :=
  claim_C8 c4content c4match (by decide)

/-- Claim C9: a file whose content yields no regex match returns 0 and
leaves the state — flat list, groups, and per-file stats — completely
unchanged (hence no `source_files` entry), while `files_processed` is the
length of the discovered file list regardless. -/
theorem claim_C9 (st : AnalyzerState) (path content : Str) (h : findAll content = []) :
    parse_single_file st path content = (st, 0) ∧
    (∀ files : List (Str × Str), (parse_log_files files).file_list = files.map Prod.fst) ∧
    (∀ stats, get_statistics st = some stats →
      stats.files_processed = st.file_list.length ∧
      stats.source_files = buildSourceFiles st.file_stats) := by
  refine ⟨parse_single_file_no_match h, parse_log_files_file_list, ?_⟩
  intro stats hs
  rw [get_statistics] at hs
  by_cases hq : st.queries = []
  · rw [if_pos hq] at hs
    cases hs
  · rw [if_neg hq, Option.some_inj] at hs
    subst hs
    exact ⟨rfl, rfl⟩

/-- Witness for claim C9 at matchless content. -/
theorem claim_C9_witness :
    parse_single_file emptyState (str "a.log") (str "nothing here") = (emptyState, 0) :=
  (claim_C9 emptyState (str "a.log") (str "nothing here") (by decide)).1

/-- Claim C10: the `source_files` breakdown is keyed by basename, so of two
processed files sharing a basename only the later one's entry survives (its
distinct `file_size` shows which), while `total_slow_queries` still counts
the records of both. -/
theorem claim_C10 :
    (get_statistics (parse_log_files c10files)).map (fun stats => stats.source_files) =
      some [(str "repository.log", ⟨1, c10content2.length⟩)] ∧
    (get_statistics (parse_log_files c10files)).map (fun stats => stats.total_slow_queries) =
      some 2 ∧
    c10content1.length ≠ c10content2.length := by
  decide

end SQA
